import Mathlib

/-!
# HeimdallSort — verification of the duplicate-detection spec

The repository is a Tauri application: a TypeScript frontend (present in the
sources) driving a Rust detection backend (engine).  The engine itself
(perceptual hashing, hash cache, BK-tree similarity index, grouping) is not
part of the frontend sources; it is modelled here from the specification, as
indicated on each definition.  The frontend modules (`duplicates.ts`,
`virtual-scroll.ts`, `state.ts`, `gallery`, `types.ts`) are embedded from the
source directly.
-/

set_option maxHeartbeats 1000000

namespace HeimdallSort

/-- Modelled from the spec: the Hamming distance of the engine's
64-bit perceptual fingerprints — the number of differing bits (popcount of
XOR) over the 64-bit reference width. -/
def hamming (a b : Nat) : Nat :=
  (List.range 64).countP (fun i => a.testBit i != b.testBit i)

theorem countP_subadd (l : List Nat) (p q r : Nat → Bool)
    (h : ∀ i, p i = true → q i = true ∨ r i = true) :
    l.countP p ≤ l.countP q + l.countP r := by
  induction l with
  | nil => simp
  | cons a t ih =>
    simp only [List.countP_cons]
    cases hp : p a <;> cases hq : q a <;> cases hr : r a <;>
      simp [hp, hq, hr] <;>
      first
        | omega
        | exact absurd (h a hp) (by simp [hq, hr])

theorem hamming_triangle (a b c : Nat) : hamming a c ≤ hamming a b + hamming b c := by
  apply countP_subadd
  intro i _hi
  cases hab : a.testBit i <;> cases hbb : b.testBit i <;> cases hcb : c.testBit i <;>
    simp_all

theorem hamming_comm (a b : Nat) : hamming a b = hamming b a := by
  unfold hamming
  induction (List.range 64) with
  | nil => rfl
  | cons x t ih =>
    simp only [List.countP_cons, ih]
    cases a.testBit x <;> cases b.testBit x <;> rfl

mutual
/-- Modelled from the spec: a BK-tree node owns a fingerprint value and a
mapping from integer distance to child node (association structure); the
engine's `SimilarityIndex` is missing from the frontend sources. -/
inductive BKTree : Type where
  | node : Nat → BKForest → BKTree
inductive BKForest : Type where
  | nil : BKForest
  | cons : Nat → BKTree → BKForest → BKForest
end

mutual
/-- All fingerprints stored in a BK-tree. -/
def BKTree.elems : BKTree → List Nat
  | .node v cs => v :: cs.elemsF
def BKForest.elemsF : BKForest → List Nat
  | .nil => []
  | .cons _ c rest => c.elems ++ rest.elemsF
end

mutual
/-- Modelled from the spec: BK-tree insertion — starting at the root,
repeatedly compute the distance to the current node; if a child exists at
exactly that distance, descend; otherwise attach a new child there. -/
def BKTree.insert : BKTree → Nat → BKTree
  | .node v cs, f => .node v (cs.insertF (hamming f v) f)
def BKForest.insertF : BKForest → Nat → Nat → BKForest
  | .nil, d, f => .cons d (.node f .nil) .nil
  | .cons e c rest, d, f =>
    if e = d then .cons e (c.insert f) rest
    else .cons e c (rest.insertF d f)
end

mutual
/-- Modelled from the spec: BK-tree query — at each node compute
`d = distance(query, node.value)`; if `d ≤ radius` include the node; then
visit only children whose edge label `e` satisfies `|d - e| ≤ radius`. -/
def BKTree.query : BKTree → Nat → Nat → List Nat
  | .node v cs, q, r =>
    (if hamming q v ≤ r then [v] else []) ++ cs.queryF (hamming q v) q r
def BKForest.queryF : BKForest → Nat → Nat → Nat → List Nat
  | .nil, _, _, _ => []
  | .cons e c rest, d, q, r =>
    (if d - e ≤ r ∧ e - d ≤ r then c.query q r else []) ++ rest.queryF d q r
end

mutual
/-- The BK-tree structural invariant: every value reachable through the child
at edge label `e` lies at distance exactly `e` from the parent value. -/
def BKTree.Inv : BKTree → Prop
  | .node v cs => cs.InvF v
def BKForest.InvF : BKForest → Nat → Prop
  | .nil, _ => True
  | .cons e c rest, v => (∀ y ∈ c.elems, hamming v y = e) ∧ c.Inv ∧ rest.InvF v
end

/-- Modelled from the spec: the similarity index built by inserting the
fingerprints one at a time; the first insertion becomes the root. -/
def buildIndex (l : List Nat) : Option BKTree :=
  l.foldl (fun idx f =>
    match idx with
    | none => some (.node f .nil)
    | some t => some (t.insert f)) none

/-- Query of the optional index: an empty index answers the empty set. -/
def queryIndex (idx : Option BKTree) (q r : Nat) : List Nat :=
  match idx with
  | none => []
  | some t => t.query q r

mutual
theorem BKTree.mem_elems_insert : ∀ (t : BKTree) (f x : Nat),
    x ∈ (t.insert f).elems ↔ x = f ∨ x ∈ t.elems
  | .node v cs, f, x => by
    simp only [BKTree.insert, BKTree.elems, List.mem_cons]
    rw [BKForest.mem_elemsF_insertF cs (hamming f v) f x]
    tauto
theorem BKForest.mem_elemsF_insertF : ∀ (cs : BKForest) (d f x : Nat),
    x ∈ (cs.insertF d f).elemsF ↔ x = f ∨ x ∈ cs.elemsF
  | .nil, d, f, x => by
    simp [BKForest.insertF, BKForest.elemsF, BKTree.elems]
  | .cons e c rest, d, f, x => by
    simp only [BKForest.insertF]
    by_cases h : e = d
    · simp only [if_pos h, BKForest.elemsF, List.mem_append]
      rw [BKTree.mem_elems_insert c f x]
      tauto
    · simp only [if_neg h, BKForest.elemsF, List.mem_append]
      rw [BKForest.mem_elemsF_insertF rest d f x]
      tauto
end

mutual
theorem BKTree.inv_insert : ∀ (t : BKTree) (f : Nat), t.Inv → (t.insert f).Inv
  | .node v cs, f, h => by
    simp only [BKTree.insert, BKTree.Inv] at *
    exact BKForest.invF_insertF cs v (hamming f v) f (by rw [hamming_comm]) h
theorem BKForest.invF_insertF : ∀ (cs : BKForest) (v d f : Nat),
    d = hamming v f → cs.InvF v → (cs.insertF d f).InvF v
  | .nil, v, d, f, hd, _ => by
    simp only [BKForest.insertF, BKForest.InvF, BKTree.elems, BKForest.elemsF]
    refine ⟨?_, trivial, trivial⟩
    intro y hy
    simp only [List.append_nil, List.mem_singleton] at hy
    subst hy
    omega
  | .cons e c rest, v, d, f, hd, h => by
    obtain ⟨h1, h2, h3⟩ := h
    by_cases he : e = d
    · simp only [BKForest.insertF, if_pos he, BKForest.InvF]
      refine ⟨?_, BKTree.inv_insert c f h2, h3⟩
      intro y hy
      rw [BKTree.mem_elems_insert] at hy
      rcases hy with rfl | hy
      · omega
      · exact h1 y hy
    · simp only [BKForest.insertF, if_neg he, BKForest.InvF]
      exact ⟨h1, h2, BKForest.invF_insertF rest v d f hd h3⟩
end

mutual
theorem BKTree.query_sound : ∀ (t : BKTree) (q r x : Nat),
    x ∈ t.query q r → x ∈ t.elems ∧ hamming q x ≤ r
  | .node v cs, q, r, x => by
    intro hx
    simp only [BKTree.query, List.mem_append] at hx
    rcases hx with hx | hx
    · by_cases h : hamming q v ≤ r
      · simp only [if_pos h, List.mem_singleton] at hx
        subst hx
        exact ⟨by simp [BKTree.elems], h⟩
      · simp [if_neg h] at hx
    · have hrec := BKForest.queryF_sound cs (hamming q v) q r x hx
      exact ⟨by simp [BKTree.elems, hrec.1], hrec.2⟩
theorem BKForest.queryF_sound : ∀ (cs : BKForest) (d q r x : Nat),
    x ∈ cs.queryF d q r → x ∈ cs.elemsF ∧ hamming q x ≤ r
  | .nil, d, q, r, x => by
    simp [BKForest.queryF]
  | .cons e c rest, d, q, r, x => by
    intro hx
    simp only [BKForest.queryF, List.mem_append] at hx
    simp only [BKForest.elemsF, List.mem_append]
    rcases hx with hx | hx
    · by_cases hc : d - e ≤ r ∧ e - d ≤ r
      · simp only [if_pos hc] at hx
        have hrec := BKTree.query_sound c q r x hx
        exact ⟨Or.inl hrec.1, hrec.2⟩
      · rw [if_neg hc] at hx
        simp at hx
    · have hrec := BKForest.queryF_sound rest d q r x hx
      exact ⟨Or.inr hrec.1, hrec.2⟩
end

mutual
theorem BKTree.query_complete : ∀ (t : BKTree) (q r x : Nat),
    t.Inv → x ∈ t.elems → hamming q x ≤ r → x ∈ t.query q r
  | .node v cs, q, r, x => by
    intro hinv hmem hdist
    simp only [BKTree.elems, List.mem_cons] at hmem
    simp only [BKTree.query, List.mem_append]
    rcases hmem with rfl | hmem
    · left
      simp [if_pos hdist]
    · right
      exact BKForest.queryF_complete cs v (hamming q v) q r x rfl hinv hmem hdist
theorem BKForest.queryF_complete : ∀ (cs : BKForest) (v d q r x : Nat),
    d = hamming q v → cs.InvF v → x ∈ cs.elemsF → hamming q x ≤ r →
    x ∈ cs.queryF d q r
  | .nil, v, d, q, r, x => by
    simp [BKForest.elemsF]
  | .cons e c rest, v, d, q, r, x => by
    intro hd hinv hmem hdist
    obtain ⟨h1, h2, h3⟩ := hinv
    simp only [BKForest.elemsF, List.mem_append] at hmem
    simp only [BKForest.queryF, List.mem_append]
    rcases hmem with hmem | hmem
    · left
      have he : hamming v x = e := h1 x hmem
      have t1 : hamming q v ≤ hamming q x + hamming x v := hamming_triangle q x v
      have t2 : hamming v x ≤ hamming v q + hamming q x := hamming_triangle v q x
      have hc1 : hamming x v = hamming v x := hamming_comm x v
      have hc2 : hamming v q = hamming q v := hamming_comm v q
      have hcond : d - e ≤ r ∧ e - d ≤ r := by omega
      rw [if_pos hcond]
      exact BKTree.query_complete c q r x h2 hmem hdist
    · right
      exact BKForest.queryF_complete rest v d q r x hd h3 hmem hdist
end

/-- One insertion step on the optional index. -/
def insStep (idx : Option BKTree) (f : Nat) : Option BKTree :=
  match idx with
  | none => some (.node f .nil)
  | some t => some (t.insert f)

theorem buildIndex_eq_foldl (l : List Nat) : buildIndex l = l.foldl insStep none := by
  rfl

/-- Fingerprints stored in the optional index. -/
def elemsIndex : Option BKTree → List Nat
  | none => []
  | some t => t.elems

/-- The invariant lifted to the optional index. -/
def InvIndex : Option BKTree → Prop
  | none => True
  | some t => t.Inv

theorem mem_elemsIndex_insStep (idx : Option BKTree) (f x : Nat) :
    x ∈ elemsIndex (insStep idx f) ↔ x = f ∨ x ∈ elemsIndex idx := by
  cases idx with
  | none => simp [insStep, elemsIndex, BKTree.elems, BKForest.elemsF]
  | some t => simpa [insStep, elemsIndex] using BKTree.mem_elems_insert t f x

theorem invIndex_insStep (idx : Option BKTree) (f : Nat) (h : InvIndex idx) :
    InvIndex (insStep idx f) := by
  cases idx with
  | none => simp [insStep, InvIndex, BKTree.Inv, BKForest.InvF]
  | some t => exact BKTree.inv_insert t f h

theorem mem_elemsIndex_foldl (l : List Nat) :
    ∀ (idx : Option BKTree) (x : Nat),
      x ∈ elemsIndex (l.foldl insStep idx) ↔ x ∈ l ∨ x ∈ elemsIndex idx := by
  induction l with
  | nil => simp
  | cons a t ih =>
    intro idx x
    simp only [List.foldl_cons, List.mem_cons]
    rw [ih, mem_elemsIndex_insStep]
    tauto

theorem invIndex_foldl (l : List Nat) :
    ∀ (idx : Option BKTree), InvIndex idx → InvIndex (l.foldl insStep idx) := by
  induction l with
  | nil => intro idx h; exact h
  | cons a t ih =>
    intro idx h
    exact ih _ (invIndex_insStep idx a h)

theorem mem_buildIndex (l : List Nat) (x : Nat) :
    x ∈ elemsIndex (buildIndex l) ↔ x ∈ l := by
  rw [buildIndex_eq_foldl, mem_elemsIndex_foldl]
  simp [elemsIndex]

theorem invIndex_buildIndex (l : List Nat) : InvIndex (buildIndex l) := by
  rw [buildIndex_eq_foldl]
  exact invIndex_foldl l none trivial

/-- The load-bearing fact about the similarity index: membership in a query
answer is exactly membership among the inserted fingerprints within the
radius. -/
theorem queryIndex_mem (l : List Nat) (q r x : Nat) :
    x ∈ queryIndex (buildIndex l) q r ↔ x ∈ l ∧ hamming q x ≤ r := by
  constructor
  · intro hx
    cases h : buildIndex l with
    | none => rw [h] at hx; simp [queryIndex] at hx
    | some t =>
      rw [h] at hx
      have hs := BKTree.query_sound t q r x hx
      refine ⟨?_, hs.2⟩
      rw [← mem_buildIndex l x, h]
      exact hs.1
  · rintro ⟨hmem, hdist⟩
    cases h : buildIndex l with
    | none =>
      rw [← mem_buildIndex l x, h] at hmem
      simp [elemsIndex] at hmem
    | some t =>
      have hinv : t.Inv := by
        have := invIndex_buildIndex l
        rwa [h] at this
      have hmem' : x ∈ t.elems := by
        rw [← mem_buildIndex l x, h] at hmem
        exact hmem
      exact BKTree.query_complete t q r x hinv hmem' hdist

/-- C1: for every set of fingerprints inserted into the similarity index in
any order, and every radius `r`, `query(f, r)` returns exactly the inserted
fingerprints within Hamming distance `r` of `f` — identical to the
brute-force comparison against all inserted fingerprints, for every
insertion ordering. -/
theorem C1_similarity_index_query_matches_brute_force (l : List Nat) (f r x : Nat) :
    x ∈ queryIndex (buildIndex l) f r ↔ x ∈ l.filter (fun p => hamming f p ≤ r) := by
  rw [queryIndex_mem, List.mem_filter]
  simp

/-- Modelled from the spec: one file record of the engine — a path, the
content digest (`ExactFingerprint`) and the perceptual fingerprint. -/
structure FileRec where
  path : String
  exact : Nat
  perc : Nat

/-- Default record used for out-of-range index access in the shallow model. -/
def dfltFile : FileRec := ⟨"", 0, 0⟩

/-- Does group `g` contain a member adjacent to the new element `i`? -/
def touches (adjB : Nat → Nat → Bool) (i : Nat) (g : List Nat) : Bool :=
  g.any (fun j => adjB j i)

/-- Split the groups into (joined members of the groups touching `i`,
the untouched groups, order preserved). -/
def splitTouch (adjB : Nat → Nat → Bool) (i : Nat) : List (List Nat) → List Nat × List (List Nat)
  | [] => ([], [])
  | g :: rest =>
    let p := splitTouch adjB i rest
    if touches adjB i g then (g ++ p.1, p.2) else (p.1, g :: p.2)

/-- Modelled from the spec: the union-find merge step of the Grouper — the
new element `i` is united with every existing group containing a neighbor,
merged into the earliest such group (preserving first-encountered order);
with no neighbor, `i` starts a fresh singleton group. -/
def addIndex (adjB : Nat → Nat → Bool) (groups : List (List Nat)) (i : Nat) : List (List Nat) :=
  match groups with
  | [] => [[i]]
  | g :: gs =>
    if touches adjB i g then
      let p := splitTouch adjB i gs
      (g ++ p.1 ++ [i]) :: p.2
    else g :: addIndex adjB gs i

/-- Modelled from the spec: the Grouper processes the files in run order and
unites all files connected by at least one candidate edge. -/
def buildGroups (adjB : Nat → Nat → Bool) (n : Nat) : List (List Nat) :=
  (List.range n).foldl (addIndex adjB) []

/-- Modelled from the spec: the candidate-edge relation between files `i` and
`j` — exact-digest equality always merges (short-circuiting the perceptual
comparison), otherwise `j` is a neighbor when its perceptual fingerprint is
returned by the index query around file `i` at the configured threshold. -/
def fileAdj (fs : List FileRec) (idx : Option BKTree) (t : Nat) (i j : Nat) : Bool :=
  let a := fs.getD i dfltFile
  let b := fs.getD j dfltFile
  decide (i ≠ j) && ((a.exact == b.exact) || decide (b.perc ∈ queryIndex idx a.perc t))

/-- Modelled from the spec: the detection run with an explicit phase-1
completion order `ins` of the perceptual fingerprints (the order in which
phase 2 inserts them into the index); only groups of size at least 2 are
reported. -/
def findDuplicatesWith (fs : List FileRec) (t : Nat) (ins : List Nat) : List (List Nat) :=
  (buildGroups (fileAdj fs (buildIndex ins) t) fs.length).filter (fun g => 2 ≤ g.length)

/-- Modelled from the spec: `findDuplicates` — detection with the canonical
insertion order (input order of the files). -/
def findDuplicates (fs : List FileRec) (t : Nat) : List (List Nat) :=
  findDuplicatesWith fs t (fs.map (fun f => f.perc))

theorem splitTouch_mem_left (adjB : Nat → Nat → Bool) (i : Nat) :
    ∀ (gs : List (List Nat)) (x : Nat), x ∈ (splitTouch adjB i gs).1 →
      ∃ h ∈ gs, touches adjB i h = true ∧ x ∈ h := by
  intro gs
  induction gs with
  | nil => simp [splitTouch]
  | cons g rest ih =>
    intro x
    simp only [splitTouch]
    by_cases ht : touches adjB i g
    · simp only [if_pos ht, List.mem_append]
      rintro (hx | hx)
      · exact ⟨g, by simp, ht, hx⟩
      · obtain ⟨h, hh, hth, hxh⟩ := ih x hx
        exact ⟨h, by simp [hh], hth, hxh⟩
    · simp only [if_neg ht]
      intro hx
      obtain ⟨h, hh, hth, hxh⟩ := ih x hx
      exact ⟨h, by simp [hh], hth, hxh⟩

theorem splitTouch_mem_right (adjB : Nat → Nat → Bool) (i : Nat) :
    ∀ (gs : List (List Nat)) (h : List Nat), h ∈ (splitTouch adjB i gs).2 →
      h ∈ gs ∧ touches adjB i h = false := by
  intro gs
  induction gs with
  | nil => simp [splitTouch]
  | cons g rest ih =>
    intro h
    simp only [splitTouch]
    by_cases ht : touches adjB i g
    · simp only [if_pos ht]
      intro hh
      obtain ⟨h1, h2⟩ := ih h hh
      exact ⟨by simp [h1], h2⟩
    · simp only [if_neg ht, List.mem_cons]
      rintro (rfl | hh)
      · exact ⟨by simp, by simpa using ht⟩
      · obtain ⟨h1, h2⟩ := ih h hh
        exact ⟨by simp [h1], h2⟩

theorem splitTouch_touch_subset (adjB : Nat → Nat → Bool) (i : Nat) :
    ∀ (gs : List (List Nat)) (h : List Nat), h ∈ gs → touches adjB i h = true →
      ∀ x ∈ h, x ∈ (splitTouch adjB i gs).1 := by
  intro gs
  induction gs with
  | nil => simp
  | cons g rest ih =>
    intro h hh hth x hx
    simp only [List.mem_cons] at hh
    simp only [splitTouch]
    rcases hh with rfl | hh
    · simp [if_pos hth, List.mem_append, hx]
    · by_cases ht : touches adjB i g
      · simp only [if_pos ht, List.mem_append]
        exact Or.inr (ih h hh hth x hx)
      · simp only [if_neg ht]
        exact ih h hh hth x hx

theorem splitTouch_noTouch_mem (adjB : Nat → Nat → Bool) (i : Nat) :
    ∀ (gs : List (List Nat)) (h : List Nat), h ∈ gs → touches adjB i h = false →
      h ∈ (splitTouch adjB i gs).2 := by
  intro gs
  induction gs with
  | nil => simp
  | cons g rest ih =>
    intro h hh hth
    simp only [List.mem_cons] at hh
    simp only [splitTouch]
    rcases hh with rfl | hh
    · simp [if_neg (by simp [hth] : ¬touches adjB i h = true)]
    · by_cases ht : touches adjB i g
      · simp only [if_pos ht]
        exact ih h hh hth
      · simp only [if_neg ht, List.mem_cons]
        exact Or.inr (ih h hh hth)

theorem splitTouch_join_perm (adjB : Nat → Nat → Bool) (i : Nat) :
    ∀ (gs : List (List Nat)),
      ((splitTouch adjB i gs).1 ++ (splitTouch adjB i gs).2.flatten).Perm gs.flatten := by
  intro gs
  induction gs with
  | nil => simp [splitTouch]
  | cons g rest ih =>
    simp only [splitTouch, List.flatten_cons]
    by_cases ht : touches adjB i g
    · simp only [if_pos ht]
      rw [List.append_assoc]
      exact List.Perm.append_left g ih
    · simp only [if_neg ht, List.flatten_cons]
      refine List.Perm.trans ?_ (List.Perm.append_left g ih)
      rw [← List.append_assoc, ← List.append_assoc]
      exact List.Perm.append_right _ List.perm_append_comm

theorem addIndex_flatten_perm (adjB : Nat → Nat → Bool) (i : Nat) :
    ∀ (groups : List (List Nat)),
      (addIndex adjB groups i).flatten.Perm (i :: groups.flatten) := by
  intro groups
  induction groups with
  | nil => simp [addIndex]
  | cons g gs ih =>
    simp only [addIndex]
    by_cases ht : touches adjB i g
    · simp only [if_pos ht, List.flatten_cons]
      have hperm := splitTouch_join_perm adjB i gs
      have h1 : (g ++ (splitTouch adjB i gs).1 ++ [i]) ++ (splitTouch adjB i gs).2.flatten
          = (g ++ (splitTouch adjB i gs).1) ++ i :: (splitTouch adjB i gs).2.flatten := by
        simp
      rw [h1]
      refine List.Perm.trans List.perm_middle ?_
      refine List.Perm.cons i ?_
      rw [List.append_assoc]
      exact List.Perm.append_left g hperm
    · simp only [if_neg ht, List.flatten_cons]
      refine List.Perm.trans (List.Perm.append_left g ih) ?_
      exact List.perm_middle

theorem addIndex_old_subset (adjB : Nat → Nat → Bool) (i : Nat) :
    ∀ (groups : List (List Nat)) (g : List Nat), g ∈ groups →
      ∃ g' ∈ addIndex adjB groups i, ∀ x ∈ g, x ∈ g' := by
  intro groups
  induction groups with
  | nil => simp
  | cons h gs ih =>
    intro g hg
    simp only [List.mem_cons] at hg
    simp only [addIndex]
    by_cases ht : touches adjB i h
    · simp only [if_pos ht]
      rcases hg with rfl | hg
      · exact ⟨g ++ (splitTouch adjB i gs).1 ++ [i], by simp, by
          intro x hx
          simp [hx]⟩
      · by_cases htg : touches adjB i g
        · refine ⟨h ++ (splitTouch adjB i gs).1 ++ [i], by simp, ?_⟩
          intro x hx
          have := splitTouch_touch_subset adjB i gs g hg htg x hx
          simp [this]
        · refine ⟨g, ?_, fun x hx => hx⟩
          have := splitTouch_noTouch_mem adjB i gs g hg (by simpa using htg)
          simp [this]
    · simp only [if_neg ht]
      rcases hg with rfl | hg
      · exact ⟨g, by simp, fun x hx => hx⟩
      · obtain ⟨g', hg', hsub⟩ := ih g hg
        exact ⟨g', by simp [hg'], hsub⟩

theorem addIndex_big_group (adjB : Nat → Nat → Bool) (i : Nat) :
    ∀ (groups : List (List Nat)),
      ∃ G ∈ addIndex adjB groups i, i ∈ G ∧
        ∀ g ∈ groups, touches adjB i g = true → ∀ x ∈ g, x ∈ G := by
  intro groups
  induction groups with
  | nil => exact ⟨[i], by simp [addIndex], by simp, by simp⟩
  | cons h gs ih =>
    simp only [addIndex]
    by_cases ht : touches adjB i h
    · simp only [if_pos ht]
      refine ⟨h ++ (splitTouch adjB i gs).1 ++ [i], by simp, by simp, ?_⟩
      intro g hg htg x hx
      simp only [List.mem_cons] at hg
      rcases hg with rfl | hg
      · simp [hx]
      · have := splitTouch_touch_subset adjB i gs g hg htg x hx
        simp [this]
    · simp only [if_neg ht]
      obtain ⟨G, hG, hiG, hprop⟩ := ih
      refine ⟨G, by simp [hG], hiG, ?_⟩
      intro g hg htg x hx
      simp only [List.mem_cons] at hg
      rcases hg with rfl | hg
      · exact absurd htg (by simpa using ht)
      · exact hprop g hg htg x hx

theorem addIndex_nonempty (adjB : Nat → Nat → Bool) (i : Nat) :
    ∀ (groups : List (List Nat)), (∀ g ∈ groups, g ≠ []) →
      ∀ g ∈ addIndex adjB groups i, g ≠ [] := by
  intro groups
  induction groups with
  | nil =>
    intro _ g hg
    simp only [addIndex, List.mem_singleton] at hg
    subst hg
    simp
  | cons h gs ih =>
    intro hne g hg
    simp only [addIndex] at hg
    by_cases ht : touches adjB i h
    · rw [if_pos ht] at hg
      simp only [List.mem_cons] at hg
      rcases hg with rfl | hg
      · simp
      · have := splitTouch_mem_right adjB i gs g hg
        exact hne g (by simp [this.1])
    · rw [if_neg ht] at hg
      simp only [List.mem_cons] at hg
      rcases hg with rfl | hg
      · exact hne g (by simp)
      · exact ih (fun g' hg' => hne g' (by simp [hg'])) g hg

theorem addIndex_cases (adjB : Nat → Nat → Bool) (i : Nat) :
    ∀ (groups : List (List Nat)) (g' : List Nat), g' ∈ addIndex adjB groups i →
      g' ∈ groups ∨
        (i ∈ g' ∧ ∀ x ∈ g', x = i ∨
          ∃ h ∈ groups, touches adjB i h = true ∧ x ∈ h) := by
  intro groups
  induction groups with
  | nil =>
    intro g' hg'
    simp only [addIndex, List.mem_singleton] at hg'
    subst hg'
    exact Or.inr ⟨by simp, by simp⟩
  | cons h gs ih =>
    intro g' hg'
    simp only [addIndex] at hg'
    by_cases ht : touches adjB i h
    · rw [if_pos ht] at hg'
      simp only [List.mem_cons] at hg'
      rcases hg' with rfl | hg'
      · refine Or.inr ⟨by simp, ?_⟩
        intro x hx
        simp only [List.append_assoc, List.mem_append, List.mem_singleton] at hx
        rcases hx with hx | hx | rfl
        · exact Or.inr ⟨h, by simp, ht, hx⟩
        · obtain ⟨h', hh', hth', hxh'⟩ := splitTouch_mem_left adjB i gs x hx
          exact Or.inr ⟨h', by simp [hh'], hth', hxh'⟩
        · exact Or.inl rfl
      · have := splitTouch_mem_right adjB i gs g' hg'
        exact Or.inl (by simp [this.1])
    · rw [if_neg ht] at hg'
      simp only [List.mem_cons] at hg'
      rcases hg' with rfl | hg'
      · exact Or.inl (by simp)
      · rcases ih g' hg' with hold | ⟨hig', hprop⟩
        · exact Or.inl (by simp [hold])
        · refine Or.inr ⟨hig', ?_⟩
          intro x hx
          rcases hprop x hx with rfl | ⟨h', hh', hth', hxh'⟩
          · exact Or.inl rfl
          · exact Or.inr ⟨h', by simp [hh'], hth', hxh'⟩

theorem addIndex_noTouch (adjB : Nat → Nat → Bool) (i : Nat) :
    ∀ (groups : List (List Nat)), (∀ g ∈ groups, touches adjB i g = false) →
      addIndex adjB groups i = groups ++ [[i]] := by
  intro groups
  induction groups with
  | nil => simp [addIndex]
  | cons h gs ih =>
    intro hno
    simp only [addIndex]
    rw [if_neg (by simp [hno h (by simp)])]
    rw [ih (fun g hg => hno g (by simp [hg]))]
    simp

theorem buildGroups_succ (adjB : Nat → Nat → Bool) (n : Nat) :
    buildGroups adjB (n + 1) = addIndex adjB (buildGroups adjB n) n := by
  simp [buildGroups, List.range_succ]

theorem buildGroups_flatten_mem (adjB : Nat → Nat → Bool) :
    ∀ n x, x ∈ (buildGroups adjB n).flatten ↔ x < n := by
  intro n
  induction n with
  | zero => simp [buildGroups]
  | succ n ih =>
    intro x
    rw [buildGroups_succ, (addIndex_flatten_perm adjB n _).mem_iff]
    simp only [List.mem_cons, ih]
    omega

/-- The running invariant of the Grouper's union-find partition: the groups
cover exactly the processed domain, no file appears twice, no group is
empty, and any two adjacent processed files share a group. -/
structure PartInv (adjB : Nat → Nat → Bool) (dom : Nat → Prop)
    (groups : List (List Nat)) : Prop where
  mem_iff : ∀ x, (∃ g ∈ groups, x ∈ g) ↔ dom x
  nodup : groups.flatten.Nodup
  nonempty : ∀ g ∈ groups, g ≠ []
  closed : ∀ x y, dom x → dom y → adjB x y = true →
    ∃ g ∈ groups, x ∈ g ∧ y ∈ g

theorem PartInv.congr_dom {adjB : Nat → Nat → Bool} {dom1 dom2 : Nat → Prop}
    {groups : List (List Nat)} (h : PartInv adjB dom1 groups)
    (hiff : ∀ x, dom1 x ↔ dom2 x) : PartInv adjB dom2 groups := by
  refine ⟨fun x => (h.mem_iff x).trans (hiff x), h.nodup, h.nonempty, ?_⟩
  intro x y hx hy hadj
  exact h.closed x y ((hiff x).mpr hx) ((hiff y).mpr hy) hadj

theorem partInv_addIndex (adjB : Nat → Nat → Bool) (dom : Nat → Prop)
    (groups : List (List Nat)) (i : Nat)
    (hinv : PartInv adjB dom groups) (hi : ¬ dom i)
    (hsym : ∀ x y, (x = i ∨ dom x) → (y = i ∨ dom y) → adjB x y = adjB y x) :
    PartInv adjB (fun x => x = i ∨ dom x) (addIndex adjB groups i) := by
  have hperm := addIndex_flatten_perm adjB i groups
  refine ⟨?_, ?_, addIndex_nonempty adjB i groups hinv.nonempty, ?_⟩
  · intro x
    rw [← List.mem_flatten, hperm.mem_iff]
    simp only [List.mem_cons, List.mem_flatten]
    rw [show (∃ l ∈ groups, x ∈ l) ↔ dom x from hinv.mem_iff x]
  · rw [hperm.nodup_iff]
    refine List.nodup_cons.mpr ⟨?_, hinv.nodup⟩
    intro hmem
    exact hi ((hinv.mem_iff i).mp (List.mem_flatten.mp hmem))
  · intro x y hx hy hadj
    rcases hx with hxi | hx
    · rcases hy with hyi | hy
      · rw [hxi, hyi]
        obtain ⟨G, hG, hiG, _⟩ := addIndex_big_group adjB i groups
        exact ⟨G, hG, hiG, hiG⟩
      · rw [hxi]
        rw [hxi] at hadj
        have hadj' : adjB y i = true := by
          rw [hsym y i (Or.inr hy) (Or.inl rfl)]
          exact hadj
        obtain ⟨gy, hgy, hygy⟩ := (hinv.mem_iff y).mpr hy
        obtain ⟨G, hG, hiG, hprop⟩ := addIndex_big_group adjB i groups
        have htouch : touches adjB i gy = true := by
          simp only [touches, List.any_eq_true]
          exact ⟨y, hygy, hadj'⟩
        exact ⟨G, hG, hiG, hprop gy hgy htouch y hygy⟩
    · rcases hy with hyi | hy
      · rw [hyi]
        rw [hyi] at hadj
        obtain ⟨gx, hgx, hxgx⟩ := (hinv.mem_iff x).mpr hx
        obtain ⟨G, hG, hiG, hprop⟩ := addIndex_big_group adjB i groups
        have htouch : touches adjB i gx = true := by
          simp only [touches, List.any_eq_true]
          exact ⟨x, hxgx, hadj⟩
        exact ⟨G, hG, hprop gx hgx htouch x hxgx, hiG⟩
      · obtain ⟨g, hg, hxg, hyg⟩ := hinv.closed x y hx hy hadj
        obtain ⟨g', hg', hsub⟩ := addIndex_old_subset adjB i groups g hg
        exact ⟨g', hg', hsub x hxg, hsub y hyg⟩

theorem buildGroups_partInv (adjB : Nat → Nat → Bool) :
    ∀ n, (∀ x y, x < n → y < n → adjB x y = adjB y x) →
      PartInv adjB (fun x => x < n) (buildGroups adjB n) := by
  intro n
  induction n with
  | zero =>
    intro _
    refine ⟨?_, ?_, ?_, ?_⟩ <;> simp [buildGroups]
  | succ n ih =>
    intro hsym
    rw [buildGroups_succ]
    have hprev := ih (fun x y hx hy => hsym x y (Nat.lt_succ_of_lt hx) (Nat.lt_succ_of_lt hy))
    have hstep := partInv_addIndex adjB (fun x => x < n) (buildGroups adjB n) n hprev
      (by omega)
      (by
        intro x y hx hy
        refine hsym x y ?_ ?_ <;> omega)
    exact hstep.congr_dom (by intro x; omega)

theorem buildGroups_isolated (adjB : Nat → Nat → Bool) (i : Nat) :
    ∀ n, (∀ j, j < n → j ≠ i → adjB i j = false ∧ adjB j i = false) →
      ∀ g ∈ buildGroups adjB n, i ∈ g → g = [i] := by
  intro n
  induction n with
  | zero =>
    intro _ g hg
    simp [buildGroups] at hg
  | succ n ih =>
    intro hiso g hg hig
    have hiso' : ∀ j, j < n → j ≠ i → adjB i j = false ∧ adjB j i = false :=
      fun j hj => hiso j (Nat.lt_succ_of_lt hj)
    rw [buildGroups_succ] at hg
    by_cases hni : n = i
    · subst hni
      rw [addIndex_noTouch adjB n _ ?_] at hg
      · simp only [List.mem_append, List.mem_singleton] at hg
        rcases hg with hg | rfl
        · exfalso
          have : n ∈ (buildGroups adjB n).flatten := List.mem_flatten.mpr ⟨g, hg, hig⟩
          rw [buildGroups_flatten_mem] at this
          omega
        · rfl
      · intro g' hg'
        by_contra hcon
        have htrue : touches adjB n g' = true := by
          cases h : touches adjB n g' with
          | false => exact absurd h hcon
          | true => rfl
        simp only [touches, List.any_eq_true] at htrue
        obtain ⟨j, hjg', hadj⟩ := htrue
        have hj : j < n := by
          rw [← buildGroups_flatten_mem adjB n j]
          exact List.mem_flatten.mpr ⟨g', hg', hjg'⟩
        have := (hiso' j hj (by omega)).2
        rw [this] at hadj
        exact Bool.false_ne_true hadj
    · rcases addIndex_cases adjB n (buildGroups adjB n) g hg with hold | ⟨hng, hprop⟩
      · exact ih hiso' g hold hig
      · exfalso
        rcases hprop i hig with rfl | ⟨h, hh, hth, hih⟩
        · exact hni rfl
        · have hhi : h = [i] := ih hiso' h hh hih
          subst hhi
          simp only [touches, List.any_eq_true, List.mem_singleton] at hth
          obtain ⟨j, rfl, hadj⟩ := hth
          have hfalse := (hiso n (by omega) hni).1
          rw [hfalse] at hadj
          exact Bool.false_ne_true hadj

theorem getD_mem : ∀ (l : List FileRec) (i : Nat), i < l.length → l.getD i dfltFile ∈ l := by
  intro l
  induction l with
  | nil =>
    intro i h
    simp at h
  | cons a rest ih =>
    intro i h
    cases i with
    | zero => simp [List.getD_cons_zero]
    | succ k =>
      simp only [List.getD_cons_succ, List.mem_cons]
      exact Or.inr (ih k (by simpa using h))

theorem fileAdj_eq_true (fs : List FileRec) (ins : List Nat) (t i j : Nat) :
    fileAdj fs (buildIndex ins) t i j = true ↔
      i ≠ j ∧ ((fs.getD i dfltFile).exact = (fs.getD j dfltFile).exact ∨
        ((fs.getD j dfltFile).perc ∈ ins ∧
          hamming (fs.getD i dfltFile).perc (fs.getD j dfltFile).perc ≤ t)) := by
  simp only [fileAdj, Bool.and_eq_true, Bool.or_eq_true, decide_eq_true_eq, beq_iff_eq,
    queryIndex_mem]

theorem fileAdj_symm (fs : List FileRec) (t i j : Nat)
    (hi : i < fs.length) (hj : j < fs.length) :
    fileAdj fs (buildIndex (fs.map (fun f => f.perc))) t i j =
      fileAdj fs (buildIndex (fs.map (fun f => f.perc))) t j i := by
  have hpi : (fs.getD i dfltFile).perc ∈ fs.map (fun f => f.perc) :=
    List.mem_map.mpr ⟨fs.getD i dfltFile, getD_mem fs i hi, rfl⟩
  have hpj : (fs.getD j dfltFile).perc ∈ fs.map (fun f => f.perc) :=
    List.mem_map.mpr ⟨fs.getD j dfltFile, getD_mem fs j hj, rfl⟩
  rw [Bool.eq_iff_iff, fileAdj_eq_true, fileAdj_eq_true]
  constructor
  · rintro ⟨hne, h⟩
    refine ⟨Ne.symm hne, ?_⟩
    rcases h with h | ⟨_, h⟩
    · exact Or.inl h.symm
    · exact Or.inr ⟨hpi, by rwa [hamming_comm]⟩
  · rintro ⟨hne, h⟩
    refine ⟨Ne.symm hne, ?_⟩
    rcases h with h | ⟨_, h⟩
    · exact Or.inl h.symm
    · exact Or.inr ⟨hpj, by rwa [hamming_comm]⟩

theorem findDuplicates_partInv (fs : List FileRec) (t : Nat) :
    PartInv (fileAdj fs (buildIndex (fs.map (fun f => f.perc))) t)
      (fun x => x < fs.length)
      (buildGroups (fileAdj fs (buildIndex (fs.map (fun f => f.perc))) t) fs.length) :=
  buildGroups_partInv _ fs.length (fun x y hx hy => fileAdj_symm fs t x y hx hy)

theorem mem_findDuplicates (fs : List FileRec) (t : Nat) (g : List Nat) :
    g ∈ findDuplicates fs t ↔
      g ∈ buildGroups (fileAdj fs (buildIndex (fs.map (fun f => f.perc))) t) fs.length ∧
        2 ≤ g.length := by
  simp [findDuplicates, findDuplicatesWith, List.mem_filter]

theorem two_le_length_of_mem_ne {g : List Nat} {i j : Nat}
    (hi : i ∈ g) (hj : j ∈ g) (hne : i ≠ j) : 2 ≤ g.length := by
  cases g with
  | nil => simp at hi
  | cons a rest =>
    cases rest with
    | nil =>
      simp only [List.mem_singleton] at hi hj
      exact absurd (hi.trans hj.symm) hne
    | cons b r =>
      simp only [List.length_cons]
      omega

/-- C2: for every input file set and every threshold value (including
threshold = 0), any two files with equal exact content digests are placed in
the same duplicate group of the detection output. -/
theorem C2_exact_duplicates_always_grouped (fs : List FileRec) (t i j : Nat)
    (hi : i < fs.length) (hj : j < fs.length) (hne : i ≠ j)
    (hex : (fs.getD i dfltFile).exact = (fs.getD j dfltFile).exact) :
    ∃ g ∈ findDuplicates fs t, i ∈ g ∧ j ∈ g := by
  have hadj : fileAdj fs (buildIndex (fs.map (fun f => f.perc))) t i j = true := by
    rw [fileAdj_eq_true]
    exact ⟨hne, Or.inl hex⟩
  obtain ⟨g, hg, hig, hjg⟩ := (findDuplicates_partInv fs t).closed i j hi hj hadj
  refine ⟨g, ?_, hig, hjg⟩
  rw [mem_findDuplicates]
  exact ⟨hg, two_le_length_of_mem_ne hig hjg hne⟩

theorem C2_witness :
    ∃ g ∈ findDuplicates [⟨"a", 7, 0⟩, ⟨"b", 7, 63⟩] 0, 0 ∈ g ∧ 1 ∈ g :=
  C2_exact_duplicates_always_grouped [⟨"a", 7, 0⟩, ⟨"b", 7, 63⟩] 0 0 1
    (by decide) (by decide) (by decide) (by decide)

/-- C3: the threshold is an inclusive maximum Hamming distance — a pair at
distance exactly the threshold is grouped; a pair at threshold + 1 with
distinct digests and no other connections is not grouped. -/
theorem C3_threshold_inclusive_boundary (fs : List FileRec) (t i j : Nat)
    (hi : i < fs.length) (hj : j < fs.length) (hne : i ≠ j)
    (hd : hamming (fs.getD i dfltFile).perc (fs.getD j dfltFile).perc = t) :
    (∃ g ∈ findDuplicates fs t, i ∈ g ∧ j ∈ g) ∧
    (∀ a b : FileRec, a.exact ≠ b.exact → hamming a.perc b.perc = t + 1 →
      findDuplicates [a, b] t = []) := by
  constructor
  · have hadj : fileAdj fs (buildIndex (fs.map (fun f => f.perc))) t i j = true := by
      rw [fileAdj_eq_true]
      refine ⟨hne, Or.inr ⟨?_, by omega⟩⟩
      exact List.mem_map.mpr ⟨fs.getD j dfltFile, getD_mem fs j hj, rfl⟩
    obtain ⟨g, hg, hig, hjg⟩ := (findDuplicates_partInv fs t).closed i j hi hj hadj
    refine ⟨g, ?_, hig, hjg⟩
    rw [mem_findDuplicates]
    exact ⟨hg, two_le_length_of_mem_ne hig hjg hne⟩
  · intro a b hab hd1
    have hfa : fileAdj [a, b] (buildIndex [a.perc, b.perc]) t 0 1 = false := by
      rw [Bool.eq_false_iff]
      intro hcon
      rw [fileAdj_eq_true] at hcon
      obtain ⟨-, hcon⟩ := hcon
      simp only [List.getD_cons_zero, List.getD_cons_succ] at hcon
      rcases hcon with hcon | ⟨-, hcon⟩
      · exact hab hcon
      · omega
    have hbg : buildGroups (fileAdj [a, b] (buildIndex [a.perc, b.perc]) t) 2 =
        [[0], [1]] := by
      rw [show (2 : Nat) = 1 + 1 from rfl, buildGroups_succ, buildGroups_succ]
      have h0 : buildGroups (fileAdj [a, b] (buildIndex [a.perc, b.perc]) t) 0 =
          [] := rfl
      rw [h0]
      simp [addIndex, touches, hfa]
    have hdef : findDuplicates [a, b] t =
        (buildGroups (fileAdj [a, b] (buildIndex [a.perc, b.perc]) t) 2).filter
          (fun g => 2 ≤ g.length) := rfl
    rw [hdef, hbg]
    rfl

theorem C3_witness :
    (∃ g ∈ findDuplicates [⟨"a", 1, 3⟩, ⟨"b", 2, 2⟩] 1, 0 ∈ g ∧ 1 ∈ g) ∧
    findDuplicates [⟨"x", 1, 3⟩, ⟨"y", 2, 0⟩] 1 = [] := by
  have h := C3_threshold_inclusive_boundary [⟨"a", 1, 3⟩, ⟨"b", 2, 2⟩] 1 0 1
    (by decide) (by decide) (by decide) (by decide)
  exact ⟨h.1, h.2 ⟨"x", 1, 3⟩ ⟨"y", 2, 0⟩ (by decide) (by decide)⟩

/-- C4: in every detection output the duplicate groups are pairwise disjoint,
every reported group has at least 2 members, and a file with no neighbor
within the threshold (and no exact duplicate) never appears in any group. -/
theorem C4_groups_disjoint_min_size_no_singletons (fs : List FileRec) (t : Nat) :
    (findDuplicates fs t).Pairwise List.Disjoint ∧
    (∀ g ∈ findDuplicates fs t, 2 ≤ g.length) ∧
    (∀ i, i < fs.length →
      (∀ j, j < fs.length → j ≠ i →
        (fs.getD i dfltFile).exact ≠ (fs.getD j dfltFile).exact ∧
        t < hamming (fs.getD i dfltFile).perc (fs.getD j dfltFile).perc) →
      ∀ g ∈ findDuplicates fs t, i ∉ g) := by
  refine ⟨?_, ?_, ?_⟩
  · have hnodup := (findDuplicates_partInv fs t).nodup
    have hpair := (List.nodup_flatten.mp hnodup).2
    unfold findDuplicates findDuplicatesWith
    exact hpair.sublist (List.filter_sublist _)
  · intro g hg
    rw [mem_findDuplicates] at hg
    exact hg.2
  · intro i hi hiso g hg hig
    rw [mem_findDuplicates] at hg
    have hfalse : ∀ j, j < fs.length → j ≠ i →
        fileAdj fs (buildIndex (fs.map (fun f => f.perc))) t i j = false ∧
        fileAdj fs (buildIndex (fs.map (fun f => f.perc))) t j i = false := by
      intro j hj hji
      obtain ⟨hexne, hdist⟩ := hiso j hj hji
      constructor
      · rw [Bool.eq_false_iff]
        intro hcon
        rw [fileAdj_eq_true] at hcon
        rcases hcon.2 with hcon | ⟨-, hcon⟩
        · exact hexne hcon
        · omega
      · rw [Bool.eq_false_iff]
        intro hcon
        rw [fileAdj_eq_true] at hcon
        rcases hcon.2 with hcon | ⟨-, hcon⟩
        · exact hexne hcon.symm
        · rw [hamming_comm] at hcon
          omega
    have hmem_lt : ∀ j ∈ g, j < fs.length := by
      intro j hjg
      rw [← buildGroups_flatten_mem (fileAdj fs (buildIndex (fs.map (fun f => f.perc))) t)
        fs.length j]
      exact List.mem_flatten.mpr ⟨g, hg.1, hjg⟩
    have hsingleton : g = [i] := by
      refine buildGroups_isolated _ i fs.length ?_ g hg.1 hig
      intro j hj hji
      exact hfalse j hj hji
    rw [hsingleton] at hg
    simp at hg

theorem C4_witness :
    (findDuplicates [⟨"a", 1, 0⟩, ⟨"b", 2, 63⟩] 1).Pairwise List.Disjoint ∧
    (∀ g ∈ findDuplicates [⟨"a", 1, 0⟩, ⟨"b", 2, 63⟩] 1, 0 ∉ g) := by
  have h := C4_groups_disjoint_min_size_no_singletons [⟨"a", 1, 0⟩, ⟨"b", 2, 63⟩] 1
  refine ⟨h.1, ?_⟩
  apply h.2.2 0 (by decide)
  intro j hj hne
  have hj2 : j < 2 := by simpa using hj
  have hj1 : j = 1 := by omega
  subst hj1
  exact ⟨by decide, by decide⟩

theorem fileAdj_congr (fs : List FileRec) (t : Nat) (ins1 ins2 : List Nat)
    (h : ∀ x, x ∈ ins1 ↔ x ∈ ins2) :
    fileAdj fs (buildIndex ins1) t = fileAdj fs (buildIndex ins2) t := by
  funext i j
  rw [Bool.eq_iff_iff, fileAdj_eq_true, fileAdj_eq_true]
  have hj := h ((fs.getD j dfltFile).perc)
  tauto

/-- C5: the detection result is deterministic — two runs whose phase-1
completion orders are any permutations of the file fingerprints yield
identical group lists (same membership and same order), equal to the
canonical run. -/
theorem C5_detection_deterministic (fs : List FileRec) (t : Nat)
    (ins1 ins2 : List Nat)
    (h1 : ins1.Perm (fs.map (fun f => f.perc)))
    (h2 : ins2.Perm (fs.map (fun f => f.perc))) :
    findDuplicatesWith fs t ins1 = findDuplicatesWith fs t ins2 ∧
    findDuplicatesWith fs t ins1 = findDuplicates fs t := by
  have e1 : fileAdj fs (buildIndex ins1) t =
      fileAdj fs (buildIndex (fs.map (fun f => f.perc))) t :=
    fileAdj_congr fs t _ _ (fun x => h1.mem_iff)
  have e2 : fileAdj fs (buildIndex ins2) t =
      fileAdj fs (buildIndex (fs.map (fun f => f.perc))) t :=
    fileAdj_congr fs t _ _ (fun x => h2.mem_iff)
  constructor
  · unfold findDuplicatesWith
    rw [e1, e2]
  · unfold findDuplicates findDuplicatesWith
    rw [e1]

theorem C5_witness :
    findDuplicatesWith [⟨"a", 1, 3⟩, ⟨"b", 2, 5⟩] 2 [5, 3] =
      findDuplicatesWith [⟨"a", 1, 3⟩, ⟨"b", 2, 5⟩] 2 [3, 5] :=
  (C5_detection_deterministic [⟨"a", 1, 3⟩, ⟨"b", 2, 5⟩] 2 [5, 3] [3, 5]
    (by decide) (by decide)).1

/-- Modelled from the spec: a file descriptor supplied by the scanning
collaborator — `{path, sizeBytes, modifiedAt, extension}`. -/
structure FileDescriptor where
  path : String
  sizeBytes : Nat
  modifiedAt : Nat
  extension : String

/-- Modelled from the spec: a cache entry keyed by the identity tuple
`(path, size, modifiedAt)`, holding the computed fingerprints; the HashCache
lives in the Rust backend, which is not under the frontend sources. -/
structure CacheEntry where
  keyPath : String
  keySize : Nat
  keyModifiedAt : Nat
  exactFp : Nat
  percFp : Nat

/-- Modelled from the spec: an entry is usable iff the live file's
`(sizeBytes, modifiedAt)` (and path) equal the entry's key exactly. -/
def entryUsable (e : CacheEntry) (d : FileDescriptor) : Bool :=
  e.keyPath == d.path && e.keySize == d.sizeBytes && e.keyModifiedAt == d.modifiedAt

/-- Modelled from the spec: the only hashing failure in the detection path —
an unreadable (undecodable) file. -/
inductive HashError where
  | unreadable

/-- Modelled from the spec: `hash(descriptor)` — consult the cache by key; on
a valid hit return the cached values with no decoding; on a miss or a stale
entry decode and recompute, silently replacing any stale entry for the path;
decoding failure yields `HashError.unreadable`. -/
def hashFile (decode : FileDescriptor → Option (Nat × Nat)) (cache : List CacheEntry)
    (d : FileDescriptor) : Except HashError ((Nat × Nat) × List CacheEntry) :=
  match cache.find? (fun e => entryUsable e d) with
  | some e => .ok ((e.exactFp, e.percFp), cache)
  | none =>
    match decode d with
    | none => .error .unreadable
    | some fps =>
      .ok (fps, ⟨d.path, d.sizeBytes, d.modifiedAt, fps.1, fps.2⟩ ::
        cache.filter (fun e => !(e.keyPath == d.path)))

/-- C6: a cache entry is usable iff the live file's `(sizeBytes, modifiedAt)`
equals the entry's key exactly; a usable hit answers from the cache without
decoding (the result does not depend on the decoder and the cache is left
unchanged); any mismatch (e.g. a changed modification time) silently forces
recomputation on the next hash call and never surfaces as an error. -/
theorem C6_cache_staleness_forces_recompute (cache : List CacheEntry) (d : FileDescriptor)
    (decode : FileDescriptor → Option (Nat × Nat)) :
    (∀ e : CacheEntry, entryUsable e d = true ↔
      (e.keyPath = d.path ∧ e.keySize = d.sizeBytes ∧ e.keyModifiedAt = d.modifiedAt)) ∧
    (∀ e, cache.find? (fun e => entryUsable e d) = some e →
      hashFile decode cache d = .ok ((e.exactFp, e.percFp), cache)) ∧
    (∀ v, (∀ e ∈ cache, e.keyPath = d.path → e.keyModifiedAt ≠ d.modifiedAt) →
      decode d = some v →
      hashFile decode cache d =
        .ok (v, ⟨d.path, d.sizeBytes, d.modifiedAt, v.1, v.2⟩ ::
          cache.filter (fun e => !(e.keyPath == d.path)))) := by
  refine ⟨?_, ?_, ?_⟩
  · intro e
    simp [entryUsable, Bool.and_eq_true, beq_iff_eq, and_assoc]
  · intro e hfind
    unfold hashFile
    rw [hfind]
  · intro v hstale hdec
    have hnone : cache.find? (fun e => entryUsable e d) = none := by
      rw [List.find?_eq_none]
      intro e he hcon
      simp only [entryUsable, Bool.and_eq_true, beq_iff_eq] at hcon
      exact hstale e he hcon.1.1 hcon.2
    unfold hashFile
    rw [hnone, hdec]

theorem C6_witness :
    hashFile (fun _ => some (5, 6)) [⟨"p", 10, 99, 1, 2⟩] ⟨"p", 10, 100, "jpg"⟩ =
      .ok ((5, 6), [⟨"p", 10, 100, 5, 6⟩]) := by
  have h := (C6_cache_staleness_forces_recompute [⟨"p", 10, 99, 1, 2⟩] ⟨"p", 10, 100, "jpg"⟩
    (fun _ => some (5, 6))).2.2 (5, 6)
    (by
      intro e he hp
      simp only [List.mem_singleton] at he
      subst he
      decide)
    rfl
  rw [h]
  rfl

/-- The `ImageInfo` record of `types.ts`. -/
structure ImageInfo where
  path : String
  filename : String
  extension : String
  sizeBytes : Nat
deriving DecidableEq

/-- The `DuplicateGroup` record of `types.ts`: `{images}`. -/
structure DuplicateGroup where
  images : List ImageInfo

/-- The `DuplicateResult` record of `types.ts`:
`{groups, totalDuplicates, processed, errors}` — the detection API's result
shape. -/
structure DuplicateResult where
  groups : List DuplicateGroup
  totalDuplicates : Nat
  processed : Nat
  errors : Nat

/-- `CONFIG.DUPLICATE_THRESHOLD` from `state.ts`. -/
def DUPLICATE_THRESHOLD : Nat := 5

/-- The payload of the `find_duplicates` invocation in `duplicates.ts`. -/
structure FindDuplicatesReq where
  paths : List String
  threshold : Nat
deriving DecidableEq

/-- `startDuplicateDetection` from `duplicates.ts`: with no current images it
only updates the status (no invocation); otherwise it invokes
`find_duplicates` with the paths of all current images and the configured
threshold. -/
def startDuplicateDetectionReq (currentImages : List ImageInfo) : Option FindDuplicatesReq :=
  if currentImages.length = 0 then none
  else some ⟨currentImages.map (fun img => img.path), DUPLICATE_THRESHOLD⟩

/-- C7: the detection API result has the `{groups: [{images}],
totalDuplicates, processed, errors}` shape (embedded as `DuplicateResult`),
and the frontend always invokes `find_duplicates` with the reference default
threshold 5 (`CONFIG.DUPLICATE_THRESHOLD`) and the paths of all current
images. -/
theorem C7_detection_api_invocation (imgs : List ImageInfo) (h : imgs ≠ []) :
    startDuplicateDetectionReq imgs =
      some ⟨imgs.map (fun img => img.path), 5⟩ ∧
    DUPLICATE_THRESHOLD = 5 ∧
    (∀ r : DuplicateResult, r = ⟨r.groups, r.totalDuplicates, r.processed, r.errors⟩) := by
  refine ⟨?_, rfl, fun r => rfl⟩
  unfold startDuplicateDetectionReq
  rw [if_neg (by simpa [List.length_eq_zero] using h)]
  rfl

theorem C7_witness :
    startDuplicateDetectionReq [⟨"a", "a.jpg", "jpg", 1⟩] = some ⟨["a"], 5⟩ :=
  (C7_detection_api_invocation [⟨"a", "a.jpg", "jpg", 1⟩] (by simp)).1

/-- Modelled from the spec: the outcome of phase 1 of the pipeline — the
emitted progress events, the number of files processed and the number of
per-file failures. -/
structure Phase1Out where
  events : List Unit
  processed : Nat
  errors : Nat

/-- Modelled from the spec: phase 1 hashes every descriptor and emits exactly
one progress notification per file after its hashing completes, success or
failure; failures are recorded, never fatal. -/
def runPhase1 (hashResult : FileDescriptor → Option (Nat × Nat)) :
    List FileDescriptor → Phase1Out
  | [] => ⟨[], 0, 0⟩
  | d :: rest =>
    let out := runPhase1 hashResult rest
    match hashResult d with
    | some _ => ⟨() :: out.events, out.processed + 1, out.errors⟩
    | none => ⟨() :: out.events, out.processed + 1, out.errors + 1⟩

/-- The progress counter of `startDuplicateDetection` (`duplicates.ts`): it
starts at zero and increments by exactly one per received progress event. -/
def progressCounter (events : List Unit) : Nat :=
  events.foldl (fun c _ => c + 1) 0

theorem progressCounter_eq_length (events : List Unit) :
    progressCounter events = events.length := by
  have haux : ∀ (l : List Unit) (c : Nat), l.foldl (fun c _ => c + 1) c = c + l.length := by
    intro l
    induction l with
    | nil => simp
    | cons e rest ih =>
      intro c
      simp only [List.foldl_cons, List.length_cons, ih]
      omega
  simpa [progressCounter] using haux events 0

/-- C8: exactly one progress event is emitted per processed file (after its
hashing completes, success or failure), with no payload; the caller's
counter increments by one per event, so after the run it equals the number
of processed files. -/
theorem C8_one_progress_event_per_file (hashResult : FileDescriptor → Option (Nat × Nat))
    (files : List FileDescriptor) :
    (runPhase1 hashResult files).events.length = files.length ∧
    (runPhase1 hashResult files).processed = files.length ∧
    progressCounter (runPhase1 hashResult files).events = files.length := by
  have hmain : ∀ l : List FileDescriptor,
      (runPhase1 hashResult l).events.length = l.length ∧
      (runPhase1 hashResult l).processed = l.length := by
    intro l
    induction l with
    | nil => simp [runPhase1]
    | cons d rest ih =>
      simp only [runPhase1, List.length_cons]
      cases hashResult d <;> simp [ih.1, ih.2]
  refine ⟨(hmain files).1, (hmain files).2, ?_⟩
  rw [progressCounter_eq_length, (hmain files).1]

/-- The virtual-scroll state of `state.ts` (`VirtualScrollState`), with the
fractional pixel quantities (`rowHeight` is computed from a fractional column
width) as rationals. -/
structure VirtualScrollState where
  rowHeight : ℚ
  containerHeight : ℚ
  scrollTop : ℚ
  cols : Nat
  totalRows : Nat
  startIndex : Int
  endIndex : Int
deriving DecidableEq

/-- `Math.floor(scrollTop / rowHeight)` from `renderVirtualItems`. -/
def vsStartRow (vs : VirtualScrollState) : Int := ⌊vs.scrollTop / vs.rowHeight⌋

/-- `Math.ceil(containerHeight / rowHeight)` from `renderVirtualItems`. -/
def vsVisibleRows (vs : VirtualScrollState) : Int := ⌈vs.containerHeight / vs.rowHeight⌉

/-- `Math.max(0, startRow - buffer)` with `buffer = 2`. -/
def vsStartRowBuf (vs : VirtualScrollState) : Int := max 0 (vsStartRow vs - 2)

/-- `Math.min(startRow + visibleRows + buffer, totalRows)`. -/
def vsEndRowBuf (vs : VirtualScrollState) : Int :=
  min (vsStartRow vs + vsVisibleRows vs + 2) (vs.totalRows : Int)

/-- `newStartIndex = startRowWithBuffer * cols`. -/
def vsNewStart (vs : VirtualScrollState) : Int := vsStartRowBuf vs * (vs.cols : Int)

/-- `newEndIndex = Math.min(endRowWithBuffer * cols, currentImages.length)`. -/
def vsNewEnd (vs : VirtualScrollState) (len : Nat) : Int :=
  min (vsEndRowBuf vs * (vs.cols : Int)) (len : Int)

/-- The outcome of one `renderVirtualItems` call (`virtual-scroll.ts`): the
updated window indices and the rendered `(index, image)` pairs; `none` when
the function returns early and leaves the DOM untouched (no images, or the
window is unchanged from the previous render). -/
structure RenderWindow where
  startIndex : Int
  endIndex : Int
  rendered : List (Nat × ImageInfo)
deriving DecidableEq

/-- `renderVirtualItems` from `virtual-scroll.ts`: computes the buffered
visible window, returns early when the window is unchanged, otherwise
renders `currentImages.slice(newStartIndex, newEndIndex)` with each item's
`actualIndex = newStartIndex + i`. -/
def renderVirtualItems (vs : VirtualScrollState) (imgs : List ImageInfo) :
    Option RenderWindow :=
  if imgs.length = 0 then none
  else if vsNewStart vs = vs.startIndex ∧ vsNewEnd vs imgs.length = vs.endIndex then none
  else
    some ⟨vsNewStart vs, vsNewEnd vs imgs.length,
      ((imgs.drop (vsNewStart vs).toNat).take
          ((vsNewEnd vs imgs.length).toNat - (vsNewStart vs).toNat)).enum.map
        (fun p => ((vsNewStart vs).toNat + p.1, p.2))⟩

theorem floor_eval {q : ℚ} {z : Int} (h1 : (z : ℚ) ≤ q) (h2 : q < z + 1) : ⌊q⌋ = z :=
  Int.floor_eq_iff.mpr ⟨h1, h2⟩

theorem ceil_eval {q : ℚ} {z : Int} (h1 : (z : ℚ) - 1 < q) (h2 : q ≤ z) : ⌈q⌉ = z :=
  Int.ceil_eq_iff.mpr ⟨h1, h2⟩

/-- C9 (counterexample to the claim as stated): with a scroll offset beyond
the content (`scrollTop = 1000` against a single 100-pixel row), the
computed window has `startIndex = 8 > endIndex = 1`, violating
`startIndex ≤ endIndex`; the render still emits exactly the (empty) slice. -/
theorem C9_counterexample :
    ∃ w, renderVirtualItems ⟨100, 100, 1000, 1, 1, 0, 1⟩ [⟨"a", "a.jpg", "jpg", 1⟩] =
        some w ∧ w.endIndex < w.startIndex := by
  have hsr : vsStartRow ⟨100, 100, 1000, 1, 1, 0, 1⟩ = 10 := by
    rw [vsStartRow]
    exact floor_eval (by norm_num) (by norm_num)
  have hvr : vsVisibleRows ⟨100, 100, 1000, 1, 1, 0, 1⟩ = 1 := by
    rw [vsVisibleRows]
    exact ceil_eval (by norm_num) (by norm_num)
  have hs : vsNewStart ⟨100, 100, 1000, 1, 1, 0, 1⟩ = 8 := by
    rw [vsNewStart, vsStartRowBuf, hsr]
    decide
  have he : vsNewEnd ⟨100, 100, 1000, 1, 1, 0, 1⟩ 1 = 1 := by
    rw [vsNewEnd, vsEndRowBuf, hsr, hvr]
    decide
  refine ⟨⟨8, 1, []⟩, ?_, by decide⟩
  unfold renderVirtualItems
  rw [if_neg (by decide : ¬([(⟨"a", "a.jpg", "jpg", 1⟩ : ImageInfo)].length = 0))]
  rw [show ([(⟨"a", "a.jpg", "jpg", 1⟩ : ImageInfo)].length) = 1 from rfl, hs, he]
  rw [if_neg (by decide)]
  rfl

/-- C9 (amended): `renderVirtualItems` always clamps `startIndex` to be
nonnegative and `endIndex` to at most the image count; it renders exactly
`currentImages.slice(startIndex, endIndex)` with each item's index equal to
its position in `currentImages`; it touches nothing when the window is
unchanged; and `startIndex ≤ endIndex` holds additionally whenever the
scroll offset lies within the content (`scrollTop < totalRows * rowHeight`)
and the metrics are consistent (`cols ≥ 1`,
`totalRows = ceil(length / cols)`). -/
theorem C9_render_window (vs : VirtualScrollState) (imgs : List ImageInfo)
    (w : RenderWindow)
    (hst : 0 ≤ vs.scrollTop) (hrh : 0 < vs.rowHeight) (hch : 0 ≤ vs.containerHeight)
    (hrun : renderVirtualItems vs imgs = some w) :
    0 ≤ w.startIndex ∧ w.endIndex ≤ (imgs.length : Int) ∧
    ¬(w.startIndex = vs.startIndex ∧ w.endIndex = vs.endIndex) ∧
    (∀ p ∈ w.rendered, imgs[p.1]? = some p.2) ∧
    (1 ≤ vs.cols → vs.totalRows = (imgs.length + vs.cols - 1) / vs.cols →
      vs.scrollTop < (vs.totalRows : ℚ) * vs.rowHeight →
      w.startIndex ≤ w.endIndex) := by
  unfold renderVirtualItems at hrun
  by_cases hlen : imgs.length = 0
  · rw [if_pos hlen] at hrun
    exact absurd hrun (by simp)
  · rw [if_neg hlen] at hrun
    by_cases hsame : vsNewStart vs = vs.startIndex ∧ vsNewEnd vs imgs.length = vs.endIndex
    · rw [if_pos hsame] at hrun
      exact absurd hrun (by simp)
    · rw [if_neg hsame] at hrun
      have hw := (Option.some.inj hrun).symm
      subst hw
      have hR0 : 0 ≤ vsStartRow vs :=
        Int.floor_nonneg.mpr (div_nonneg hst hrh.le)
      have hV0 : 0 ≤ vsVisibleRows vs :=
        Int.ceil_nonneg (div_nonneg hch hrh.le)
      refine ⟨?_, ?_, hsame, ?_, ?_⟩
      · exact mul_nonneg (le_max_left 0 _) (Int.natCast_nonneg _)
      · exact min_le_right _ _
      · intro p hp
        simp only [List.mem_map] at hp
        obtain ⟨q, hq, rfl⟩ := hp
        have hget := List.mem_enum_iff_getElem?.mp hq
        rw [List.getElem?_take] at hget
        split at hget
        · rwa [List.getElem?_drop] at hget
        · simp at hget
      · intro hc1 hT hscroll
        have hRlt : vsStartRow vs < (vs.totalRows : Int) := by
          rw [vsStartRow, Int.floor_lt]
          rw [div_lt_iff₀ hrh]
          exact_mod_cast hscroll
        have hL1 : 1 ≤ imgs.length := Nat.one_le_iff_ne_zero.mpr hlen
        have hT1 : 1 ≤ vs.totalRows := by
          rw [hT, Nat.one_le_div_iff (by omega)]
          omega
        have hTcL : vs.totalRows * vs.cols ≤ imgs.length + vs.cols - 1 := by
          rw [hT]
          exact Nat.div_mul_le_self _ _
        have hTcLi : (vs.totalRows : Int) * (vs.cols : Int) ≤
            (imgs.length : Int) + (vs.cols : Int) - 1 := by
          have h1 : (1 : Nat) ≤ imgs.length + vs.cols := by omega
          zify [h1] at hTcL
          exact_mod_cast hTcL
        have hsw_end : vsStartRowBuf vs ≤ vsEndRowBuf vs := by
          simp only [vsStartRowBuf, vsEndRowBuf]
          omega
        have hsw_T1 : vsStartRowBuf vs ≤ (vs.totalRows : Int) - 1 := by
          simp only [vsStartRowBuf]
          omega
        have hc0 : (0 : Int) ≤ (vs.cols : Int) := Int.natCast_nonneg _
        have hmul1 : vsStartRowBuf vs * (vs.cols : Int) ≤
            vsEndRowBuf vs * (vs.cols : Int) :=
          mul_le_mul_of_nonneg_right hsw_end hc0
        have hmul2 : vsStartRowBuf vs * (vs.cols : Int) ≤
            ((vs.totalRows : Int) - 1) * (vs.cols : Int) :=
          mul_le_mul_of_nonneg_right hsw_T1 hc0
        have hexp : ((vs.totalRows : Int) - 1) * (vs.cols : Int) =
            (vs.totalRows : Int) * (vs.cols : Int) - (vs.cols : Int) := by ring
        have hc1i : (1 : Int) ≤ (vs.cols : Int) := by exact_mod_cast hc1
        show vsNewStart vs ≤ vsNewEnd vs imgs.length
        rw [vsNewStart, vsNewEnd, le_min_iff]
        constructor
        · exact hmul1
        · linarith

theorem C9_witness :
    (0 : Int) ≤ (0 : Int) ∧ (2 : Int) ≤ ((2 : Nat) : Int) ∧
    ¬((0 : Int) = -1 ∧ (2 : Int) = -1) ∧
    (∀ p ∈ [((0 : Nat), (⟨"a", "a.jpg", "jpg", 1⟩ : ImageInfo)),
            ((1 : Nat), (⟨"b", "b.jpg", "jpg", 2⟩ : ImageInfo))],
      ([⟨"a", "a.jpg", "jpg", 1⟩, ⟨"b", "b.jpg", "jpg", 2⟩] :
        List ImageInfo)[p.1]? = some p.2) ∧
    (1 ≤ 2 → (1 : Nat) = (2 + 2 - 1) / 2 →
      (0 : ℚ) < ((1 : Nat) : ℚ) * 100 → (0 : Int) ≤ (2 : Int)) := by
  have hsr : vsStartRow ⟨100, 100, 0, 2, 1, -1, -1⟩ = 0 := by
    rw [vsStartRow]
    exact floor_eval (by norm_num) (by norm_num)
  have hvr : vsVisibleRows ⟨100, 100, 0, 2, 1, -1, -1⟩ = 1 := by
    rw [vsVisibleRows]
    exact ceil_eval (by norm_num) (by norm_num)
  have hs : vsNewStart ⟨100, 100, 0, 2, 1, -1, -1⟩ = 0 := by
    rw [vsNewStart, vsStartRowBuf, hsr]
    decide
  have he : vsNewEnd ⟨100, 100, 0, 2, 1, -1, -1⟩ 2 = 2 := by
    rw [vsNewEnd, vsEndRowBuf, hsr, hvr]
    decide
  have hrun : renderVirtualItems ⟨100, 100, 0, 2, 1, -1, -1⟩
      [⟨"a", "a.jpg", "jpg", 1⟩, ⟨"b", "b.jpg", "jpg", 2⟩] =
      some ⟨0, 2, [(0, ⟨"a", "a.jpg", "jpg", 1⟩), (1, ⟨"b", "b.jpg", "jpg", 2⟩)]⟩ := by
    unfold renderVirtualItems
    rw [if_neg (by decide : ¬(([⟨"a", "a.jpg", "jpg", 1⟩, ⟨"b", "b.jpg", "jpg", 2⟩] :
      List ImageInfo).length = 0))]
    rw [show (([⟨"a", "a.jpg", "jpg", 1⟩, ⟨"b", "b.jpg", "jpg", 2⟩] :
      List ImageInfo).length) = 2 from rfl, hs, he]
    rw [if_neg (by decide)]
    rfl
  exact C9_render_window ⟨100, 100, 0, 2, 1, -1, -1⟩
    [⟨"a", "a.jpg", "jpg", 1⟩, ⟨"b", "b.jpg", "jpg", 2⟩]
    ⟨0, 2, [(0, ⟨"a", "a.jpg", "jpg", 1⟩), (1, ⟨"b", "b.jpg", "jpg", 2⟩)]⟩
    (by norm_num) (by norm_num) (by norm_num) hrun

/-- The frontend application state (`state.ts`): the current images and the
selection, modelled as the list of selected paths. -/
structure FrontendState where
  currentImages : List ImageInfo
  selectedPaths : List String
deriving DecidableEq

/-- The `OperationResult` record of `types.ts`. -/
structure OperationResult where
  processed : Nat
  success : Nat
  errors : Nat
  errorMessages : List String
deriving DecidableEq

/-- `getSelectedImages` from `state.ts`: the current images whose path is in
the selection set. -/
def getSelectedImages (st : FrontendState) : List ImageInfo :=
  st.currentImages.filter (fun img => st.selectedPaths.contains img.path)

/-- The requested paths of a delete/move operation: the paths of the selected
images, captured before the invocation. -/
def requestedPaths (st : FrontendState) : List String :=
  (getSelectedImages st).map (fun img => img.path)

/-- The post-invoke state update of `deleteSelected` (gallery module): with
`result.success > 0` the image list is re-filtered against all requested
paths and the selection cleared; otherwise the state is left unchanged. -/
def applyDeleteResult (st : FrontendState) (result : OperationResult) : FrontendState :=
  if 0 < result.success then
    ⟨st.currentImages.filter (fun img => !((requestedPaths st).contains img.path)), []⟩
  else st

/-- The post-invoke state update of `moveSelected` (gallery module): the same
update discipline as `deleteSelected`. -/
def applyMoveResult (st : FrontendState) (result : OperationResult) : FrontendState :=
  if 0 < result.success then
    ⟨st.currentImages.filter (fun img => !((requestedPaths st).contains img.path)), []⟩
  else st

/-- C10: after `deleteSelected` (and likewise `moveSelected`) completes with
`result.success > 0`, the image list equals the previous list with every
requested path filtered out — including paths whose per-file operation
failed (`result.errors` is arbitrary) — and the selection is cleared; with
`result.success = 0` the image list and selection are unchanged. -/
theorem C10_delete_move_state_update (st : FrontendState) (result : OperationResult) :
    (0 < result.success →
      (∀ img, img ∈ (applyDeleteResult st result).currentImages ↔
        img ∈ st.currentImages ∧ ¬ img.path ∈ requestedPaths st) ∧
      (applyDeleteResult st result).selectedPaths = [] ∧
      applyMoveResult st result = applyDeleteResult st result) ∧
    (result.success = 0 →
      applyDeleteResult st result = st ∧ applyMoveResult st result = st) := by
  constructor
  · intro hs
    refine ⟨?_, ?_, ?_⟩
    · intro img
      simp only [applyDeleteResult, if_pos hs, List.mem_filter, Bool.not_eq_true']
      constructor
      · rintro ⟨h1, h2⟩
        refine ⟨h1, ?_⟩
        intro hmem
        rw [show ((requestedPaths st).contains img.path = false) ↔
          ¬ ((requestedPaths st).contains img.path = true) by simp] at h2
        exact h2 (by simpa using hmem)
      · rintro ⟨h1, h2⟩
        refine ⟨h1, ?_⟩
        rw [show ((requestedPaths st).contains img.path = false) ↔
          ¬ ((requestedPaths st).contains img.path = true) by simp]
        intro hcon
        exact h2 (by simpa using hcon)
    · simp [applyDeleteResult, if_pos hs]
    · simp [applyDeleteResult, applyMoveResult]
  · intro hz
    have hns : ¬ 0 < result.success := by omega
    constructor
    · simp [applyDeleteResult, if_neg hns]
    · simp [applyMoveResult, if_neg hns]

theorem C10_witness :
    ((⟨"b", "b.jpg", "jpg", 2⟩ : ImageInfo) ∈
      (applyDeleteResult ⟨[⟨"a", "a.jpg", "jpg", 1⟩, ⟨"b", "b.jpg", "jpg", 2⟩], ["a"]⟩
        ⟨1, 1, 1, ["boom"]⟩).currentImages ↔
      (⟨"b", "b.jpg", "jpg", 2⟩ : ImageInfo) ∈
        ([⟨"a", "a.jpg", "jpg", 1⟩, ⟨"b", "b.jpg", "jpg", 2⟩] : List ImageInfo) ∧
        ¬ "b" ∈ requestedPaths ⟨[⟨"a", "a.jpg", "jpg", 1⟩, ⟨"b", "b.jpg", "jpg", 2⟩], ["a"]⟩) ∧
    (applyDeleteResult ⟨[⟨"a", "a.jpg", "jpg", 1⟩, ⟨"b", "b.jpg", "jpg", 2⟩], ["a"]⟩
      ⟨1, 1, 1, ["boom"]⟩).selectedPaths = [] ∧
    applyDeleteResult ⟨[⟨"a", "a.jpg", "jpg", 1⟩], ["a"]⟩ ⟨1, 0, 1, ["x"]⟩ =
      ⟨[⟨"a", "a.jpg", "jpg", 1⟩], ["a"]⟩ := by
  have h1 := (C10_delete_move_state_update
    ⟨[⟨"a", "a.jpg", "jpg", 1⟩, ⟨"b", "b.jpg", "jpg", 2⟩], ["a"]⟩
    ⟨1, 1, 1, ["boom"]⟩).1 (by decide)
  have h2 := (C10_delete_move_state_update ⟨[⟨"a", "a.jpg", "jpg", 1⟩], ["a"]⟩
    ⟨1, 0, 1, ["x"]⟩).2 rfl
  exact ⟨h1.1 ⟨"b", "b.jpg", "jpg", 2⟩, h1.2.1, h2.1⟩

end HeimdallSort
